import Mathlib

/-!
Shallow embedding of the repository's two Python scripts:
`simple_summarizer.py`, a frequency-based extractive text summarizer, and
`edit.py`, a hard-coded 3x3 by 3x4 matrix-multiplication demo.

Strings are modelled as lists of Unicode code points (`List Nat`), so the
ASCII character classes of the regexes become arithmetic predicates.  The
summary ratio, a Python float constrained to (0, 1], is modelled as a
rational number, with Python's `int(...)` on a non-negative value modelled
as the floor.  Python dictionaries (`defaultdict(int)`) are modelled as
association lists in insertion order, which is what `dict.items()`
iterates in; `heapq.nlargest(k, items, key)` is modelled as a stable
descending insertion sort by the key followed by `take k`, matching its
documented equivalence with `sorted(items, key=key, reverse=True)[:k]`.
-/

/-- Code points of a Lean string, used to write concrete texts. -/
def codes (s : String) : List Nat := s.data.map Char.toNat

/-- ASCII whitespace class of the regex \s and of str.strip. -/
def isSpace (c : Nat) : Bool := c = 32 || (9 ≤ c && c ≤ 13)

/-- ASCII word-character class of the regex \w : A-Z, a-z, 0-9 and underscore. -/
def isWordChar (c : Nat) : Bool :=
  (48 ≤ c && c ≤ 57) || (65 ≤ c && c ≤ 90) || (97 ≤ c && c ≤ 122) || c = 95

/-- Sentence-terminal punctuation of the lookbehind: period, bang, question mark. -/
def isTerm (c : Nat) : Bool := c = 46 || c = 33 || c = 63

/-- ASCII lower-casing of one character, as str.lower does on ASCII text. -/
def lowerChar (c : Nat) : Nat := if 65 ≤ c ∧ c ≤ 90 then c + 32 else c

/-- str.lower over a whole string. -/
def lowerStr (s : List Nat) : List Nat := s.map lowerChar

/-- str.strip: remove leading and trailing whitespace. -/
def strip (s : List Nat) : List Nat :=
  ((s.dropWhile isSpace).reverse.dropWhile isSpace).reverse

/-- Accumulating scanner behind `findWords`; `acc` holds the current word reversed. -/
def wordsAux : List Nat → List Nat → List (List Nat)
  | [], acc => if acc = [] then [] else [acc.reverse]
  | c :: cs, acc =>
    if isWordChar c then wordsAux cs (c :: acc)
    else if acc = [] then wordsAux cs [] else acc.reverse :: wordsAux cs []

/-- re.findall of word runs: the maximal runs of word characters, in order. -/
def findWords (s : List Nat) : List (List Nat) := wordsAux s []

/-- Scanner behind `splitSentences`.  `skip` is true while consuming the
whitespace separator run; `cur` holds the current sentence reversed. -/
def splitAux : List Nat → Bool → List Nat → List (List Nat)
  | [], true, _ => [[]]
  | [], false, cur => [cur.reverse]
  | c :: cs, true, _ =>
    if isSpace c then splitAux cs true [] else splitAux cs false [c]
  | c :: cs, false, cur =>
    if isSpace c && isTerm (cur.headD 0) then cur.reverse :: splitAux cs true []
    else splitAux cs false (c :: cur)

/-- re.split at whitespace runs preceded by terminal punctuation (the
lookbehind keeps the punctuation attached to the preceding sentence). -/
def splitSentences (s : List Nat) : List (List Nat) := splitAux s false []

/-- preprocess_text: sentence list from the stripped text, word list from
the lower-cased whole text. -/
def preprocess_text (text : List Nat) : List (List Nat) × List (List Nat) :=
  (splitSentences (strip text), findWords (lowerStr text))

/-- The fixed stop-word set of the script. -/
def STOP_WORDS : List (List Nat) :=
  ["a", "an", "and", "the", "is", "are", "was", "were", "he", "she", "it",
   "i", "you", "we", "they", "him", "her", "us", "them", "my", "your",
   "our", "their", "this", "that", "these", "those", "of", "in", "on",
   "at", "to", "for", "with", "as", "by", "but", "so", "if", "or", "up",
   "down", "out", "into", "from", "about", "just", "can", "will", "would",
   "should", "has", "have", "had", "do", "does", "did", "be", "being",
   "been"].map codes

/-- defaultdict(int) update m[k] += n : add to an existing entry or append
a fresh one at the end, preserving insertion order. -/
def bump {α : Type} [DecidableEq α] : List (α × Nat) → α → Nat → List (α × Nat)
  | [], k, n => [(k, n)]
  | (k', v) :: m, k, n =>
    if k' = k then (k', v + n) :: m else (k', v) :: bump m k n

/-- Lookup in an association list (dict membership / read). -/
def findVal {α : Type} [DecidableEq α] : List (α × Nat) → α → Option Nat
  | [], _ => none
  | (k', v) :: m, k => if k' = k then some v else findVal m k

/-- calculate_word_frequencies: count every non-stop word of the text. -/
def calculate_word_frequencies (words : List (List Nat)) : List (List Nat × Nat) :=
  words.foldl (fun m w => if w ∈ STOP_WORDS then m else bump m w 1) []

/-- Subscripting a defaultdict(int): returns the value together with the
possibly extended map (a missing key would be inserted with value 0). -/
def ddGet {α : Type} [DecidableEq α] (m : List (α × Nat)) (k : α) :
    Nat × List (α × Nat) :=
  match findVal m k with
  | some v => (v, m)
  | none => (0, m ++ [(k, 0)])

/-- One word of sentence i inside score_sentences: the membership guard,
then the two defaultdict subscripts (score read-update, frequency read).
The state is the pair (sentence score map, frequency map). -/
def scoreWordStep (i : Nat) (st : List (Nat × Nat) × List (List Nat × Nat))
    (w : List Nat) : List (Nat × Nat) × List (List Nat × Nat) :=
  if (findVal st.2 w).isSome then
    (bump st.1 i (ddGet st.2 w).1, (ddGet st.2 w).2)
  else st

/-- One sentence (index paired with text) inside score_sentences. -/
def scoreSentenceStep (st : List (Nat × Nat) × List (List Nat × Nat))
    (p : Nat × List Nat) : List (Nat × Nat) × List (List Nat × Nat) :=
  (findWords (lowerStr p.2)).foldl (scoreWordStep p.1) st

/-- score_sentences: for each sentence, add the frequency of each of its
words that is present in the frequency map.  The frequency map is threaded
through because reading a defaultdict could in principle extend it; the
returned second component is the frequency map after scoring. -/
def score_sentences (sentences : List (List Nat))
    (word_frequencies : List (List Nat × Nat)) :
    List (Nat × Nat) × List (List Nat × Nat) :=
  sentences.enum.foldl scoreSentenceStep ([], word_frequencies)

/-- Comparison used for the top-N selection: a may precede b when a's
score is at least b's. -/
def geScore (a b : Nat × Nat) : Bool := b.2 ≤ a.2

/-- Comparison for the final ascending re-sort of selected indices. -/
def leNat (a b : Nat) : Bool := a ≤ b

/-- Insert x before the first element y with le x y (stable insertion). -/
def insertBy {α : Type} (le : α → α → Bool) (x : α) : List α → List α
  | [] => [x]
  | y :: ys => if le x y then x :: y :: ys else y :: insertBy le x ys

/-- Stable insertion sort. -/
def sortBy {α : Type} (le : α → α → Bool) : List α → List α
  | [] => []
  | x :: xs => insertBy le x (sortBy le xs)

/-- heapq.nlargest(k, items, key=score): the k largest items by score,
ties keeping input order. -/
def nlargest (k : Nat) (items : List (Nat × Nat)) : List (Nat × Nat) :=
  (sortBy geScore items).take k

/-- summary_sentences_count = max(1, int(num_sentences * r)). -/
def desiredCount (n : Nat) (r : ℚ) : Nat := max 1 (Int.toNat ⌊(n : ℚ) * r⌋)

/-- The selected sentence indices: keys of the top-count score items,
re-sorted ascending. -/
def topIndices (scores : List (Nat × Nat)) (count : Nat) : List Nat :=
  sortBy leNat ((nlargest count scores).map Prod.fst)

/-- Python ' '.join. -/
def joinSp : List (List Nat) → List Nat
  | [] => []
  | [p] => p
  | p :: ps => p ++ 32 :: joinSp ps

/-- The sentence list summarize_text works with. -/
def sentencesOf (text : List Nat) : List (List Nat) := (preprocess_text text).1

/-- The word list summarize_text works with. -/
def wordsOf (text : List Nat) : List (List Nat) := (preprocess_text text).2

/-- The frequency map summarize_text works with. -/
def freqOf (text : List Nat) : List (List Nat × Nat) :=
  calculate_word_frequencies (wordsOf text)

/-- The sentence score map summarize_text works with. -/
def scoresOf (text : List Nat) : List (Nat × Nat) :=
  (score_sentences (sentencesOf text) (freqOf text)).1

/-- The indices of the sentences summarize_text selects at ratio r. -/
def selectedIndices (text : List Nat) (r : ℚ) : List Nat :=
  topIndices (scoresOf text) (desiredCount (sentencesOf text).length r)

/-- summarize_text: the whole pipeline, r being the summary ratio. -/
def summarize_text (text : List Nat) (r : ℚ) : List Nat :=
  if text = [] then codes (r"Error: Input text is empty.")
  else if freqOf text = [] then
    codes (r"Error: Could not calculate word frequencies (text may contain only stop words or be too short).")
  else joinSp ((selectedIndices text r).map (fun i => (sentencesOf text).getD i []))

/-- The 3x3 literal matrix of edit.py. -/
def X : List (List Nat) := [[12, 7, 3], [4, 5, 6], [7, 8, 9]]

/-- The 3x4 literal matrix of edit.py. -/
def Y : List (List Nat) := [[5, 8, 1, 2], [6, 7, 3, 0], [4, 5, 9, 1]]

/-- Read entry (i, j) of a list-of-lists matrix. -/
def get2 (m : List (List Nat)) (i j : Nat) : Nat := (m.getD i []).getD j 0

/-- Write entry (i, j) of a list-of-lists matrix. -/
def set2 (m : List (List Nat)) (i j : Nat) (v : Nat) : List (List Nat) :=
  m.set i ((m.getD i []).set j v)

/-- The triple loop of edit.py: result[i][j] += X[i][k] * Y[k][j] over
i < len(X), j < len(Y[0]), k < len(Y), starting from the zero matrix. -/
def result : List (List Nat) :=
  (List.range X.length).foldl (fun res i =>
    (List.range (Y.getD 0 []).length).foldl (fun res j =>
      (List.range Y.length).foldl (fun res k =>
        set2 res i j (get2 res i j + get2 X i k * get2 Y k j)) res) res)
    [[0, 0, 0, 0], [0, 0, 0, 0], [0, 0, 0, 0]]

/-- Membership in a stable insertion. -/
theorem mem_insertBy {α : Type} (le : α → α → Bool) (x a : α) (l : List α) :
    a ∈ insertBy le x l ↔ a = x ∨ a ∈ l := by
  induction l with
  | nil => simp [insertBy]
  | cons y ys ih =>
    simp only [insertBy]
    split
    · simp [List.mem_cons]
    · simp only [List.mem_cons, ih]
      tauto

/-- Stable insertion permutes to a cons. -/
theorem perm_insertBy {α : Type} (le : α → α → Bool) (x : α) (l : List α) :
    List.Perm (insertBy le x l) (x :: l) := by
  induction l with
  | nil => simp [insertBy]
  | cons y ys ih =>
    simp only [insertBy]
    split
    · exact List.Perm.refl _
    · exact (ih.cons y).trans (List.Perm.swap x y ys)

/-- Insertion sort permutes its input. -/
theorem perm_sortBy {α : Type} (le : α → α → Bool) (l : List α) :
    List.Perm (sortBy le l) l := by
  induction l with
  | nil => exact List.Perm.refl _
  | cons x xs ih => exact (perm_insertBy le x (sortBy le xs)).trans (ih.cons x)

/-- Inserting into a le-sorted list keeps it le-sorted, for a total
transitive Boolean comparison. -/
theorem pairwise_insertBy {α : Type} {le : α → α → Bool}
    (htot : ∀ a b, le a b = true ∨ le b a = true)
    (htrans : ∀ a b c, le a b = true → le b c = true → le a c = true)
    (x : α) :
    ∀ l : List α, l.Pairwise (fun a b => le a b = true) →
      (insertBy le x l).Pairwise (fun a b => le a b = true) := by
  intro l
  induction l with
  | nil => intro _; simp [insertBy]
  | cons y ys ih =>
    intro hl
    rcases List.pairwise_cons.mp hl with ⟨hy, hys⟩
    simp only [insertBy]
    split
    · rename_i hxy
      refine List.pairwise_cons.mpr ⟨?_, hl⟩
      intro b hb
      rcases List.mem_cons.mp hb with rfl | hb
      · exact hxy
      · exact htrans _ _ _ hxy (hy b hb)
    · rename_i hxy
      have hyx : le y x = true := by
        rcases htot x y with h | h
        · exact absurd h hxy
        · exact h
      refine List.pairwise_cons.mpr ⟨?_, ih hys⟩
      intro b hb
      rcases (mem_insertBy le x b ys).mp hb with rfl | hb
      · exact hyx
      · exact hy b hb

/-- Insertion sort sorts, for a total transitive Boolean comparison. -/
theorem pairwise_sortBy {α : Type} {le : α → α → Bool}
    (htot : ∀ a b, le a b = true ∨ le b a = true)
    (htrans : ∀ a b c, le a b = true → le b c = true → le a c = true)
    (l : List α) :
    (sortBy le l).Pairwise (fun a b => le a b = true) := by
  induction l with
  | nil => simp [sortBy]
  | cons x xs ih => exact pairwise_insertBy htot htrans x _ ih

/-- The strict order the stable descending sort realises on score items
whose keys were ascending: strictly larger score, or equal score and
strictly smaller key. -/
def lexGT (a b : Nat × Nat) : Prop := b.2 < a.2 ∨ (a.2 = b.2 ∧ a.1 < b.1)

/-- Stability of the insertion step: inserting an item whose key is below
every key present preserves the lexicographic invariant. -/
theorem pairwise_lex_insertBy (x : Nat × Nat) :
    ∀ l : List (Nat × Nat), l.Pairwise lexGT → (∀ b ∈ l, x.1 < b.1) →
      (insertBy geScore x l).Pairwise lexGT := by
  intro l
  induction l with
  | nil => intro _ _; simp [insertBy]
  | cons y ys ih =>
    intro hl hk
    rcases List.pairwise_cons.mp hl with ⟨hy, hys⟩
    simp only [insertBy]
    split
    · rename_i hxy
      have hxy' : y.2 ≤ x.2 := by simpa [geScore] using hxy
      have hb2 : ∀ b ∈ y :: ys, b.2 ≤ x.2 := by
        intro b hb
        rcases List.mem_cons.mp hb with rfl | hb
        · exact hxy'
        · rcases hy b hb with h | ⟨h, _⟩
          · exact Nat.le_trans (Nat.le_of_lt h) hxy'
          · exact Nat.le_trans (Nat.le_of_eq h.symm) hxy'
      refine List.pairwise_cons.mpr ⟨?_, hl⟩
      intro b hb
      rcases Nat.lt_or_ge b.2 x.2 with h | h
      · exact Or.inl h
      · exact Or.inr ⟨Nat.le_antisymm h (hb2 b hb), hk b hb⟩
    · rename_i hxy
      have hyx : x.2 < y.2 := by
        have : ¬ y.2 ≤ x.2 := by simpa [geScore] using hxy
        exact Nat.lt_of_not_le (fun h => this (Nat.le_of_lt_succ (Nat.lt_succ_of_le h)))
      refine List.pairwise_cons.mpr
        ⟨?_, ih hys (fun b hb => hk b (List.mem_cons_of_mem y hb))⟩
      intro b hb
      rcases (mem_insertBy geScore x b ys).mp hb with rfl | hb
      · exact Or.inl hyx
      · exact hy b hb

/-- Stability of the descending sort: on an input whose keys are strictly
ascending, the sorted output is strictly ordered by score then key. -/
theorem pairwise_lex_sortBy :
    ∀ l : List (Nat × Nat), l.Pairwise (fun a b => a.1 < b.1) →
      (sortBy geScore l).Pairwise lexGT := by
  intro l
  induction l with
  | nil => intro _; simp [sortBy]
  | cons x xs ih =>
    intro hl
    rcases List.pairwise_cons.mp hl with ⟨hx, hxs⟩
    exact pairwise_lex_insertBy x _ (ih hxs)
      (fun b hb => hx b ((perm_sortBy geScore xs).mem_iff.mp hb))

/-- A lookup succeeds exactly on the keys of the association list. -/
theorem findVal_isSome {α : Type} [DecidableEq α] :
    ∀ (m : List (α × Nat)) (k : α),
      (findVal m k).isSome = true ↔ k ∈ m.map Prod.fst := by
  intro m k
  induction m with
  | nil => simp [findVal]
  | cons p ps ih =>
    obtain ⟨k', v⟩ := p
    simp only [findVal, List.map_cons, List.mem_cons]
    by_cases h : k' = k
    · subst h; simp
    · rw [if_neg h]
      simp only [ih]
      constructor
      · exact fun hm => Or.inr hm
      · rintro (rfl | hm)
        · exact absurd rfl h
        · exact hm

/-- A bump at an existing key leaves the key sequence unchanged. -/
theorem map_fst_bump_mem {α : Type} [DecidableEq α] :
    ∀ (m : List (α × Nat)) (k : α) (n : Nat), k ∈ m.map Prod.fst →
      (bump m k n).map Prod.fst = m.map Prod.fst := by
  intro m
  induction m with
  | nil => intro k n h; simp at h
  | cons p ps ih =>
    intro k n h
    obtain ⟨k', v⟩ := p
    simp only [bump]
    by_cases hk : k' = k
    · rw [if_pos hk]; simp
    · rw [if_neg hk]
      simp only [List.map_cons]
      have hmem : k ∈ ps.map Prod.fst := by
        simp only [List.map_cons, List.mem_cons] at h
        rcases h with h | h
        · exact absurd h.symm hk
        · exact h
      rw [ih k n hmem]

/-- A bump at a fresh key appends that key at the end. -/
theorem map_fst_bump_new {α : Type} [DecidableEq α] :
    ∀ (m : List (α × Nat)) (k : α) (n : Nat), k ∉ m.map Prod.fst →
      (bump m k n).map Prod.fst = m.map Prod.fst ++ [k] := by
  intro m
  induction m with
  | nil => intro k n _; simp [bump]
  | cons p ps ih =>
    intro k n h
    obtain ⟨k', v⟩ := p
    simp only [List.map_cons, List.mem_cons] at h
    push_neg at h
    simp only [bump]
    rw [if_neg (fun hh => h.1 hh.symm)]
    simp only [List.map_cons, List.cons_append, List.cons.injEq]
    exact ⟨trivial, ih k n h.2⟩

/-- Keys of a bump: the bumped key or an existing key. -/
theorem mem_keys_bump {α : Type} [DecidableEq α] :
    ∀ (m : List (α × Nat)) (k w : α) (n : Nat),
      k ∈ (bump m w n).map Prod.fst → k ∈ m.map Prod.fst ∨ k = w := by
  intro m
  induction m with
  | nil => intro k w n h; simp [bump] at h; exact Or.inr h
  | cons p ps ih =>
    intro k w n h
    obtain ⟨k', v⟩ := p
    simp only [bump] at h
    by_cases hk : k' = w
    · rw [if_pos hk] at h
      simp only [List.map_cons, List.mem_cons] at h ⊢
      tauto
    · rw [if_neg hk] at h
      simp only [List.map_cons, List.mem_cons] at h ⊢
      rcases h with h | h
      · exact Or.inl (Or.inl h)
      · rcases ih k w n h with h | h
        · exact Or.inl (Or.inr h)
        · exact Or.inr h

/-- Entries of a bump: an old entry, the freshly created entry, or an old
entry at the bumped key with the increment added. -/
theorem mem_bump {α : Type} [DecidableEq α] :
    ∀ (m : List (α × Nat)) (k : α) (n : Nat) (p : α × Nat),
      p ∈ bump m k n →
        p ∈ m ∨ (p.1 = k ∧ (p.2 = n ∨ ∃ v, (k, v) ∈ m ∧ p.2 = v + n)) := by
  intro m
  induction m with
  | nil =>
    intro k n p h
    simp only [bump, List.mem_singleton] at h
    subst h
    exact Or.inr ⟨rfl, Or.inl rfl⟩
  | cons q ps ih =>
    intro k n p h
    obtain ⟨k', v⟩ := q
    simp only [bump] at h
    by_cases hk : k' = k
    · rw [if_pos hk] at h
      subst hk
      rcases List.mem_cons.mp h with rfl | h
      · exact Or.inr ⟨rfl, Or.inr ⟨v, List.mem_cons_self _ _, rfl⟩⟩
      · exact Or.inl (List.mem_cons_of_mem _ h)
    · rw [if_neg hk] at h
      rcases List.mem_cons.mp h with rfl | h
      · exact Or.inl (List.mem_cons_self _ _)
      · rcases ih k n p h with h | ⟨h1, h2⟩
        · exact Or.inl (List.mem_cons_of_mem _ h)
        · refine Or.inr ⟨h1, ?_⟩
          rcases h2 with h2 | ⟨w, hw, hpw⟩
          · exact Or.inl h2
          · exact Or.inr ⟨w, List.mem_cons_of_mem _ hw, hpw⟩

/-- In an association list with distinct keys the value at a key is
unique. -/
theorem assoc_value_unique {α : Type} [DecidableEq α] :
    ∀ (m : List (α × Nat)), (m.map Prod.fst).Nodup →
      ∀ (k : α) (a b : Nat), (k, a) ∈ m → (k, b) ∈ m → a = b := by
  intro m
  induction m with
  | nil => intro _ k a b h; simp at h
  | cons p ps ih =>
    intro hnd k a b ha hb
    obtain ⟨k', v⟩ := p
    simp only [List.map_cons, List.nodup_cons] at hnd
    rcases List.mem_cons.mp ha with ha' | ha'
    · rcases List.mem_cons.mp hb with hb' | hb'
      · rw [Prod.mk.injEq] at ha' hb'
        exact ha'.2.trans hb'.2.symm
      · exfalso
        apply hnd.1
        rw [Prod.mk.injEq] at ha'
        rw [← ha'.1]
        exact List.mem_map_of_mem Prod.fst hb'
    · rcases List.mem_cons.mp hb with hb' | hb'
      · exfalso
        apply hnd.1
        rw [Prod.mk.injEq] at hb'
        rw [← hb'.1]
        exact List.mem_map_of_mem Prod.fst ha'
      · exact ih hnd.2 k a b ha' hb'

/-- Invariant of the frequency fold: all entries are non-stop words with
positive counts. -/
theorem freq_fold_inv :
    ∀ (ws : List (List Nat)) (m : List (List Nat × Nat)),
      (∀ p ∈ m, p.1 ∉ STOP_WORDS ∧ 0 < p.2) →
      ∀ p ∈ ws.foldl (fun m w => if w ∈ STOP_WORDS then m else bump m w 1) m,
        p.1 ∉ STOP_WORDS ∧ 0 < p.2 := by
  intro ws
  induction ws with
  | nil => intro m hm p hp; exact hm p hp
  | cons w ws ih =>
    intro m hm p hp
    simp only [List.foldl_cons] at hp
    by_cases hw : w ∈ STOP_WORDS
    · rw [if_pos hw] at hp
      exact ih m hm p hp
    · rw [if_neg hw] at hp
      refine ih (bump m w 1) ?_ p hp
      intro q hq
      rcases mem_bump m w 1 q hq with h | ⟨h1, h2⟩
      · exact hm q h
      · refine ⟨h1 ▸ hw, ?_⟩
        rcases h2 with h2 | ⟨v, _, h2⟩
        · omega
        · omega

/-- Keys of the frequency fold come from the seed map or the word list. -/
theorem freq_fold_keys :
    ∀ (ws : List (List Nat)) (m : List (List Nat × Nat)) (k : List Nat),
      k ∈ (ws.foldl (fun m w => if w ∈ STOP_WORDS then m else bump m w 1) m).map Prod.fst →
      k ∈ m.map Prod.fst ∨ k ∈ ws := by
  intro ws
  induction ws with
  | nil => intro m k h; exact Or.inl h
  | cons w ws ih =>
    intro m k h
    simp only [List.foldl_cons] at h
    by_cases hw : w ∈ STOP_WORDS
    · rw [if_pos hw] at h
      rcases ih m k h with h | h
      · exact Or.inl h
      · exact Or.inr (List.mem_cons_of_mem w h)
    · rw [if_neg hw] at h
      rcases ih (bump m w 1) k h with h | h
      · rcases mem_keys_bump m k w 1 h with h | h
        · exact Or.inl h
        · exact Or.inr (h ▸ List.mem_cons_self w ws)
      · exact Or.inr (List.mem_cons_of_mem w h)

/-- Whitespace characters are not word characters. -/
theorem space_not_word (c : Nat) (h : isSpace c = true) : isWordChar c = false := by
  simp only [isSpace, Bool.or_eq_true, Bool.and_eq_true, decide_eq_true_eq] at h
  simp only [isWordChar, Bool.or_eq_false_iff, Bool.and_eq_false_iff,
    decide_eq_false_iff_not]
  omega

/-- On a run of non-word characters the word scanner only flushes its
accumulator. -/
theorem wordsAux_nonword :
    ∀ w : List Nat, (∀ c ∈ w, isWordChar c = false) →
      ∀ acc, wordsAux w acc = if acc = [] then [] else [acc.reverse] := by
  intro w
  induction w with
  | nil => intro _ acc; rfl
  | cons c cs ih =>
    intro h acc
    have hc : isWordChar c = false := h c (List.mem_cons_self c cs)
    have hcs : ∀ d ∈ cs, isWordChar d = false :=
      fun d hd => h d (List.mem_cons_of_mem c hd)
    simp only [wordsAux, hc, Bool.false_eq_true, if_false]
    by_cases ha : acc = []
    · rw [if_pos ha, if_pos ha, ih hcs []]
      rfl
    · rw [if_neg ha, if_neg ha, ih hcs []]
      rfl

/-- Appending one trailing non-word character does not change the words. -/
theorem wordsAux_snoc_nonword (c : Nat) (hc : isWordChar c = false) :
    ∀ (a acc : List Nat), wordsAux (a ++ [c]) acc = wordsAux a acc := by
  intro a
  induction a with
  | nil =>
    intro acc
    simp only [List.nil_append, wordsAux, hc, Bool.false_eq_true, if_false]
    by_cases ha : acc = []
    · rw [if_pos ha, if_pos ha]; rfl
    · rw [if_neg ha, if_neg ha]; rfl
  | cons d ds ih =>
    intro acc
    simp only [List.cons_append, wordsAux, List.append_eq]
    by_cases hd : isWordChar d = true
    · rw [if_pos hd, if_pos hd, ih]
    · rw [if_neg hd, if_neg hd]
      by_cases ha : acc = []
      · rw [if_pos ha, if_pos ha, ih]
      · rw [if_neg ha, if_neg ha, ih]

/-- Splitting at an interior non-word character splits the word list. -/
theorem wordsAux_split (c : Nat) (hc : isWordChar c = false) (b : List Nat) :
    ∀ (a acc : List Nat),
      wordsAux (a ++ c :: b) acc = wordsAux (a ++ [c]) acc ++ wordsAux b [] := by
  intro a
  induction a with
  | nil =>
    intro acc
    simp only [List.nil_append, wordsAux, hc, Bool.false_eq_true, if_false]
    by_cases ha : acc = []
    · rw [if_pos ha, if_pos ha]
      rfl
    · rw [if_neg ha, if_neg ha]
      rfl
  | cons d ds ih =>
    intro acc
    simp only [List.cons_append, wordsAux, List.append_eq]
    by_cases hd : isWordChar d = true
    · rw [if_pos hd, if_pos hd, ih]
    · rw [if_neg hd, if_neg hd]
      by_cases ha : acc = []
      · rw [if_pos ha, if_pos ha, ih]
      · rw [if_neg ha, if_neg ha, ih, List.cons_append]

/-- The word list of a text split at a non-word character. -/
theorem findWords_append (c : Nat) (hc : isWordChar c = false)
    (a b : List Nat) : findWords (a ++ c :: b) = findWords a ++ findWords b := by
  unfold findWords
  rw [wordsAux_split c hc b a [], wordsAux_snoc_nonword c hc a []]

/-- Dropping a leading non-word character does not change the words. -/
theorem findWords_cons (c : Nat) (hc : isWordChar c = false)
    (b : List Nat) : findWords (c :: b) = findWords b := by
  have h := findWords_append c hc [] b
  simpa [findWords, wordsAux] using h

/-- Appending only non-word characters does not change the words. -/
theorem findWords_append_nonword (a w : List Nat)
    (hw : ∀ c ∈ w, isWordChar c = false) : findWords (a ++ w) = findWords a := by
  cases w with
  | nil => rw [List.append_nil]
  | cons c cs =>
    rw [findWords_append c (hw c (List.mem_cons_self c cs)) a cs]
    rw [show findWords cs = wordsAux cs [] from rfl]
    rw [wordsAux_nonword cs (fun d hd => hw d (List.mem_cons_of_mem c hd)) []]
    simp

/-- Stripping surrounding whitespace does not change the words. -/
theorem findWords_strip (s : List Nat) : findWords (strip s) = findWords s := by
  unfold strip
  have h1 : ∀ t : List Nat, findWords (t.dropWhile isSpace) = findWords t := by
    intro t
    induction t with
    | nil => rfl
    | cons c cs ih =>
      by_cases hc : isSpace c = true
      · rw [List.dropWhile_cons_of_pos hc, ih, findWords_cons c (space_not_word c hc) cs]
      · rw [List.dropWhile_cons_of_neg (by simpa using hc)]
  set y := s.dropWhile isSpace with hy
  have h2 : y = (y.reverse.dropWhile isSpace).reverse ++ (y.reverse.takeWhile isSpace).reverse := by
    have := List.takeWhile_append_dropWhile isSpace y.reverse
    calc y = y.reverse.reverse := (List.reverse_reverse y).symm
    _ = (y.reverse.takeWhile isSpace ++ y.reverse.dropWhile isSpace).reverse := by rw [this]
    _ = (y.reverse.dropWhile isSpace).reverse ++ (y.reverse.takeWhile isSpace).reverse := by
        rw [List.reverse_append]
  have h3 : findWords y = findWords ((y.reverse.dropWhile isSpace).reverse) := by
    conv_lhs => rw [h2]
    refine findWords_append_nonword _ _ ?_
    intro c hc
    exact space_not_word c (List.mem_takeWhile_imp (List.mem_reverse.mp hc))
  rw [← h3, h1]

/-- Concatenation of the words of each block. -/
def catWords (L : List (List Nat)) : List (List Nat) :=
  L.foldr (fun s acc => findWords s ++ acc) []

/-- Membership in the concatenated word lists. -/
theorem mem_catWords (k : List Nat) :
    ∀ L : List (List Nat), k ∈ catWords L ↔ ∃ s ∈ L, k ∈ findWords s := by
  intro L
  induction L with
  | nil => simp [catWords]
  | cons s ss ih =>
    simp only [catWords, List.foldr_cons, List.mem_append] at ih ⊢
    rw [ih]
    simp

/-- The sentence splitter exactly partitions the words of the text: the
separator runs it consumes contain no word characters. -/
theorem splitAux_words :
    ∀ s : List Nat,
      (∀ cur, catWords (splitAux s false cur) = findWords (cur.reverse ++ s)) ∧
      catWords (splitAux s true []) = findWords s := by
  intro s
  induction s with
  | nil =>
    constructor
    · intro cur
      simp [splitAux, catWords, findWords]
    · simp [splitAux, catWords, findWords, wordsAux]
  | cons c cs ih =>
    constructor
    · intro cur
      show catWords (splitAux (c :: cs) false cur) = _
      by_cases h : (isSpace c && isTerm (cur.headD 0)) = true
      · have hsp : isSpace c = true := by
          simp only [Bool.and_eq_true] at h
          exact h.1
        simp only [splitAux, h, if_true]
        simp only [catWords, List.foldr_cons]
        have : catWords (splitAux cs true []) = findWords cs := ih.2
        simp only [catWords] at this
        rw [this, findWords_append c (space_not_word c hsp) cur.reverse cs]
      · simp only [splitAux, h, Bool.false_eq_true, if_false]
        rw [ih.1 (c :: cur)]
        rw [List.reverse_cons, List.append_assoc]
        rfl
    · show catWords (splitAux (c :: cs) true []) = _
      by_cases h : isSpace c = true
      · simp only [splitAux, h, if_true]
        rw [ih.2, findWords_cons c (space_not_word c h) cs]
      · simp only [splitAux, h, Bool.false_eq_true, if_false]
        have := ih.1 [c]
        simpa using this

/-- The words of a text are the concatenation of the words of its
sentences. -/
theorem catWords_splitSentences (s : List Nat) :
    catWords (splitSentences s) = findWords s := by
  have := (splitAux_words s).1 []
  simpa [splitSentences] using this

/-- The sentence splitter always yields at least one sentence. -/
theorem splitAux_ne_nil : ∀ (s : List Nat) (m : Bool) (cur : List Nat),
    splitAux s m cur ≠ [] := by
  intro s
  induction s with
  | nil => intro m cur; cases m <;> simp [splitAux]
  | cons c cs ih =>
    intro m cur
    cases m
    · by_cases h : (isSpace c && isTerm (cur.headD 0)) = true
      · simp only [splitAux, h, if_true]
        simp
      · simp only [splitAux, h, Bool.false_eq_true, if_false]
        exact ih false (c :: cur)
    · by_cases h : isSpace c = true
      · simp only [splitAux, h, if_true]
        exact ih true []
      · simp only [splitAux, h, Bool.false_eq_true, if_false]
        exact ih false [c]

/-- Lower-casing preserves the whitespace class. -/
theorem isSpace_lower (c : Nat) : isSpace (lowerChar c) = isSpace c := by
  rw [Bool.eq_iff_iff]
  by_cases h : 65 ≤ c ∧ c ≤ 90
  · simp only [lowerChar, if_pos h, isSpace, Bool.or_eq_true, Bool.and_eq_true,
      decide_eq_true_eq]
    omega
  · rw [lowerChar, if_neg h]

/-- Lower-casing preserves the terminal-punctuation class. -/
theorem isTerm_lower (c : Nat) : isTerm (lowerChar c) = isTerm c := by
  rw [Bool.eq_iff_iff]
  by_cases h : 65 ≤ c ∧ c ≤ 90
  · simp only [lowerChar, if_pos h, isTerm, Bool.or_eq_true, decide_eq_true_eq]
    omega
  · rw [lowerChar, if_neg h]

/-- Lower-casing commutes with taking the default head. -/
theorem headD_lower (cur : List Nat) :
    (lowerStr cur).headD 0 = lowerChar (cur.headD 0) := by
  cases cur with
  | nil =>
    show (0 : Nat) = lowerChar 0
    rw [lowerChar, if_neg (by omega)]
  | cons c cs => rfl

/-- Lower-casing commutes with stripping. -/
theorem strip_lower (s : List Nat) : strip (lowerStr s) = lowerStr (strip s) := by
  have hsp : (isSpace ∘ lowerChar) = isSpace := funext fun c => isSpace_lower c
  unfold strip lowerStr
  rw [List.dropWhile_map, hsp, ← List.map_reverse, List.dropWhile_map, hsp,
    ← List.map_reverse]

/-- Lower-casing commutes with sentence splitting. -/
theorem splitAux_lower :
    ∀ (s : List Nat) (m : Bool) (cur : List Nat),
      splitAux (lowerStr s) m (lowerStr cur) = (splitAux s m cur).map lowerStr := by
  intro s
  induction s with
  | nil =>
    intro m cur
    cases m
    · show [(lowerStr cur).reverse] = [lowerStr cur.reverse]
      rw [lowerStr, lowerStr, List.map_reverse]
    · rfl
  | cons c cs ih =>
    intro m cur
    cases m
    · show splitAux (lowerChar c :: lowerStr cs) false (lowerStr cur) = _
      by_cases h : (isSpace c && isTerm (cur.headD 0)) = true
      · have h' : (isSpace (lowerChar c) && isTerm ((lowerStr cur).headD 0)) = true := by
          rw [isSpace_lower, headD_lower, isTerm_lower]; exact h
        simp only [splitAux, h, h', if_true, List.map_cons]
        have hthis := ih true []
        rw [show lowerStr ([] : List Nat) = [] from rfl] at hthis
        rw [hthis, show (lowerStr cur).reverse = lowerStr cur.reverse from by
          rw [lowerStr, lowerStr, List.map_reverse]]
      · have h' : ¬ (isSpace (lowerChar c) && isTerm ((lowerStr cur).headD 0)) = true := by
          rw [isSpace_lower, headD_lower, isTerm_lower]; exact h
        simp only [splitAux, h, h', Bool.false_eq_true, if_false]
        exact ih false (c :: cur)
    · show splitAux (lowerChar c :: lowerStr cs) true (lowerStr []) = _
      by_cases h : isSpace c = true
      · have h' : isSpace (lowerChar c) = true := by rw [isSpace_lower]; exact h
        simp only [splitAux, h, h', if_true]
        exact ih true []
      · have h' : ¬ isSpace (lowerChar c) = true := by rw [isSpace_lower]; exact h
        simp only [splitAux, h, h', Bool.false_eq_true, if_false]
        exact ih false [c]

/-- Lower-casing commutes with the sentence tokenizer. -/
theorem splitSentences_lower (s : List Nat) :
    splitSentences (lowerStr s) = (splitSentences s).map lowerStr := by
  have := splitAux_lower s false []
  simpa [splitSentences] using this

/-- The word list of the whole lower-cased text is the concatenation of
the words of the lower-cased sentences. -/
theorem wordsOf_decomp (text : List Nat) :
    wordsOf text = catWords ((sentencesOf text).map lowerStr) := by
  show findWords (lowerStr text) = _
  rw [← findWords_strip (lowerStr text), strip_lower,
    ← catWords_splitSentences (lowerStr (strip text)), splitSentences_lower]
  rfl

/-- Every word of the text is a word of one of its sentences. -/
theorem word_in_some_sentence (text : List Nat) (k : List Nat)
    (h : k ∈ wordsOf text) :
    ∃ s ∈ sentencesOf text, k ∈ findWords (lowerStr s) := by
  rw [wordsOf_decomp] at h
  rcases (mem_catWords k _).mp h with ⟨s', hs', hk⟩
  rcases List.mem_map.mp hs' with ⟨s, hs, rfl⟩
  exact ⟨s, hs, hk⟩

/-- Reading a present key leaves a defaultdict unchanged. -/
theorem ddGet_snd {α : Type} [DecidableEq α] (m : List (α × Nat)) (k : α)
    (h : (findVal m k).isSome = true) : (ddGet m k).2 = m := by
  cases hv : findVal m k with
  | none => rw [hv] at h; simp at h
  | some v => simp [ddGet, hv]

/-- Reading a present key returns its stored value. -/
theorem ddGet_fst {α : Type} [DecidableEq α] (m : List (α × Nat)) (k : α)
    (v : Nat) (h : findVal m k = some v) : (ddGet m k).1 = v := by
  simp [ddGet, h]

/-- One word step never changes the frequency map. -/
theorem scoreWordStep_snd (i : Nat) (st : List (Nat × Nat) × List (List Nat × Nat))
    (w : List Nat) : (scoreWordStep i st w).2 = st.2 := by
  unfold scoreWordStep
  split
  · rename_i h
    exact ddGet_snd st.2 w h
  · rfl

/-- Folding word steps never changes the frequency map. -/
theorem foldl_scoreWordStep_snd (i : Nat) :
    ∀ (ws : List (List Nat)) (st : List (Nat × Nat) × List (List Nat × Nat)),
      (ws.foldl (scoreWordStep i) st).2 = st.2 := by
  intro ws
  induction ws with
  | nil => intro st; rfl
  | cons w ws ih =>
    intro st
    rw [List.foldl_cons, ih (scoreWordStep i st w), scoreWordStep_snd]

/-- One sentence step never changes the frequency map. -/
theorem scoreSentenceStep_snd (st : List (Nat × Nat) × List (List Nat × Nat))
    (p : Nat × List Nat) : (scoreSentenceStep st p).2 = st.2 :=
  foldl_scoreWordStep_snd p.1 _ st

/-- Folding sentence steps never changes the frequency map. -/
theorem foldl_scoreSentenceStep_snd :
    ∀ (l : List (Nat × List Nat)) (st : List (Nat × Nat) × List (List Nat × Nat)),
      (l.foldl scoreSentenceStep st).2 = st.2 := by
  intro l
  induction l with
  | nil => intro st; rfl
  | cons p l ih =>
    intro st
    rw [List.foldl_cons, ih (scoreSentenceStep st p), scoreSentenceStep_snd]

/-- The pure word step on the score map alone, for a fixed frequency map. -/
def scoreStepP (wf : List (List Nat × Nat)) (i : Nat) (sc : List (Nat × Nat))
    (w : List Nat) : List (Nat × Nat) :=
  match findVal wf w with
  | some v => bump sc i v
  | none => sc

/-- The stateful word step projects to the pure one. -/
theorem scoreWordStep_fst (i : Nat) (st : List (Nat × Nat) × List (List Nat × Nat))
    (w : List Nat) : (scoreWordStep i st w).1 = scoreStepP st.2 i st.1 w := by
  unfold scoreWordStep scoreStepP
  cases hv : findVal st.2 w with
  | none => simp [hv]
  | some v => simp [hv, ddGet_fst st.2 w v hv]

/-- Folding word steps projects to the pure fold. -/
theorem foldl_scoreWordStep_fst (i : Nat) :
    ∀ (ws : List (List Nat)) (st : List (Nat × Nat) × List (List Nat × Nat)),
      (ws.foldl (scoreWordStep i) st).1 = ws.foldl (scoreStepP st.2 i) st.1 := by
  intro ws
  induction ws with
  | nil => intro st; rfl
  | cons w ws ih =>
    intro st
    rw [List.foldl_cons, List.foldl_cons, ih (scoreWordStep i st w),
      scoreWordStep_snd, scoreWordStep_fst]

/-- The pure sentence-scoring fold, for a fixed frequency map. -/
def pureScores (wf : List (List Nat × Nat)) (l : List (Nat × List Nat))
    (sc : List (Nat × Nat)) : List (Nat × Nat) :=
  l.foldl (fun sc p => (findWords (lowerStr p.2)).foldl (scoreStepP wf p.1) sc) sc

/-- The score map score_sentences builds is the pure fold over the
enumerated sentences. -/
theorem score_sentences_fst_aux :
    ∀ (l : List (Nat × List Nat)) (st : List (Nat × Nat) × List (List Nat × Nat)),
      (l.foldl scoreSentenceStep st).1 = pureScores st.2 l st.1 := by
  intro l
  induction l with
  | nil => intro st; rfl
  | cons p l ih =>
    intro st
    rw [List.foldl_cons, pureScores, List.foldl_cons, ih (scoreSentenceStep st p),
      scoreSentenceStep_snd]
    show pureScores st.2 l (scoreSentenceStep st p).1 = _
    rw [show (scoreSentenceStep st p).1 =
      (findWords (lowerStr p.2)).foldl (scoreStepP st.2 p.1) st.1 from
      foldl_scoreWordStep_fst p.1 _ st]
    rfl

/-- The score map of score_sentences, in pure form. -/
theorem score_sentences_fst (ss : List (List Nat)) (wf : List (List Nat × Nat)) :
    (score_sentences ss wf).1 = pureScores wf ss.enum [] :=
  score_sentences_fst_aux ss.enum ([], wf)

/-- Eligibility: the sentence has some word present in the frequency map. -/
def sentenceHit (wf : List (List Nat × Nat)) (s : List Nat) : Bool :=
  (findWords (lowerStr s)).any (fun w => (findVal wf w).isSome)

/-- Keys of the inner word fold when the sentence index is already
present: nothing changes. -/
theorem scoreStepP_keys_mem (wf : List (List Nat × Nat)) (i : Nat) :
    ∀ (ws : List (List Nat)) (sc : List (Nat × Nat)), i ∈ sc.map Prod.fst →
      (ws.foldl (scoreStepP wf i) sc).map Prod.fst = sc.map Prod.fst := by
  intro ws
  induction ws with
  | nil => intro sc _; rfl
  | cons w ws ih =>
    intro sc hi
    rw [List.foldl_cons]
    cases hv : findVal wf w with
    | none =>
      rw [show scoreStepP wf i sc w = sc from by simp [scoreStepP, hv], ih sc hi]
    | some v =>
      have hb : scoreStepP wf i sc w = bump sc i v := by simp [scoreStepP, hv]
      rw [hb, ih (bump sc i v) (by rw [map_fst_bump_mem sc i v hi]; exact hi),
        map_fst_bump_mem sc i v hi]

/-- Keys of the inner word fold when the sentence index is fresh: the
index is appended exactly when some word of the sentence is in the
frequency map. -/
theorem scoreStepP_keys_new (wf : List (List Nat × Nat)) (i : Nat) :
    ∀ (ws : List (List Nat)) (sc : List (Nat × Nat)), i ∉ sc.map Prod.fst →
      (ws.foldl (scoreStepP wf i) sc).map Prod.fst =
        sc.map Prod.fst ++
          (if ws.any (fun w => (findVal wf w).isSome) then [i] else []) := by
  intro ws
  induction ws with
  | nil => intro sc _; simp
  | cons w ws ih =>
    intro sc hi
    rw [List.foldl_cons, List.any_cons]
    cases hv : findVal wf w with
    | none =>
      rw [show scoreStepP wf i sc w = sc from by simp [scoreStepP, hv], ih sc hi]
      simp
    | some v =>
      have hb : scoreStepP wf i sc w = bump sc i v := by simp [scoreStepP, hv]
      have hkeys : (bump sc i v).map Prod.fst = sc.map Prod.fst ++ [i] :=
        map_fst_bump_new sc i v hi
      rw [hb, scoreStepP_keys_mem wf i ws (bump sc i v)
        (by rw [hkeys]; simp), hkeys]
      simp

/-- Keys of the pure scoring fold over enumerated sentences: exactly the
indices of eligible sentences, appended in order. -/
theorem pureScores_keys (wf : List (List Nat × Nat)) :
    ∀ (ss : List (List Nat)) (n : Nat) (sc : List (Nat × Nat)),
      (∀ k ∈ sc.map Prod.fst, k < n) →
      (pureScores wf (List.enumFrom n ss) sc).map Prod.fst =
        sc.map Prod.fst ++
          ((List.enumFrom n ss).filter (fun p => sentenceHit wf p.2)).map Prod.fst := by
  intro ss
  induction ss with
  | nil => intro n sc _; simp [pureScores]
  | cons s ss ih =>
    intro n sc hb
    rw [List.enumFrom_cons]
    show (pureScores wf (List.enumFrom (n + 1) ss)
      ((findWords (lowerStr s)).foldl (scoreStepP wf n) sc)).map Prod.fst = _
    have hni : n ∉ sc.map Prod.fst := fun h => absurd (hb n h) (by omega)
    have hkeys := scoreStepP_keys_new wf n (findWords (lowerStr s)) sc hni
    have hb' : ∀ k ∈ ((findWords (lowerStr s)).foldl (scoreStepP wf n) sc).map Prod.fst,
        k < n + 1 := by
      intro k hk
      rw [hkeys] at hk
      rcases List.mem_append.mp hk with hk | hk
      · exact Nat.lt_succ_of_lt (hb k hk)
      · by_cases hhit : (findWords (lowerStr s)).any (fun w => (findVal wf w).isSome) = true
        · rw [if_pos hhit] at hk
          simp at hk
          omega
        · rw [if_neg hhit] at hk
          simp at hk
    rw [ih (n + 1) _ hb', hkeys]
    by_cases hhit : sentenceHit wf s = true
    · rw [List.filter_cons_of_pos (by simpa [sentenceHit] using hhit)]
      rw [show ((findWords (lowerStr s)).any fun w => (findVal wf w).isSome) = true from
        by simpa [sentenceHit] using hhit]
      simp
    · rw [List.filter_cons_of_neg (by simpa [sentenceHit] using hhit)]
      rw [show ((findWords (lowerStr s)).any fun w => (findVal wf w).isSome) = false from
        by simpa [sentenceHit] using Bool.eq_false_iff.mpr hhit]
      simp

/-- The keys of the sentence score map: indices of eligible sentences. -/
theorem scores_keys (ss : List (List Nat)) (wf : List (List Nat × Nat)) :
    ((score_sentences ss wf).1).map Prod.fst =
      ((ss.enum).filter (fun p => sentenceHit wf p.2)).map Prod.fst := by
  rw [score_sentences_fst]
  have := pureScores_keys wf ss 0 [] (by simp)
  simpa [List.enum] using this

/-- Indices in an enumeration are strictly increasing. -/
theorem pairwise_enumFrom {α : Type} :
    ∀ (l : List α) (n : Nat),
      (List.enumFrom n l).Pairwise (fun a b => a.1 < b.1) := by
  intro l
  induction l with
  | nil => intro n; simp
  | cons x xs ih =>
    intro n
    rw [List.enumFrom_cons]
    refine List.pairwise_cons.mpr ⟨?_, ih (n + 1)⟩
    intro b hb
    obtain ⟨i, y⟩ := b
    have h1 := (List.mem_enumFrom hb).1
    show n < i
    omega

/-- A member of an enumeration reads back with getD. -/
theorem enumFrom_getD {α : Type} (d : α) :
    ∀ (l : List α) (n i : Nat) (s : α), (i, s) ∈ List.enumFrom n l →
      l.getD (i - n) d = s := by
  intro l
  induction l with
  | nil => intro n i s h; simp at h
  | cons x xs ih =>
    intro n i s h
    rw [List.enumFrom_cons] at h
    rcases List.mem_cons.mp h with h | h
    · rw [Prod.mk.injEq] at h
      obtain ⟨rfl, rfl⟩ := h
      simp
    · have hn : n + 1 ≤ i := (List.mem_enumFrom h).1
      rw [show i - n = (i - (n + 1)) + 1 from by omega, List.getD_cons_succ]
      exact ih (n + 1) i s h

/-- Every member of a list occurs in its enumeration. -/
theorem mem_enumFrom_of_mem {α : Type} :
    ∀ (l : List α) (n : Nat) (s : α), s ∈ l →
      ∃ i, (i, s) ∈ List.enumFrom n l := by
  intro l
  induction l with
  | nil => intro n s h; simp at h
  | cons x xs ih =>
    intro n s h
    rw [List.enumFrom_cons]
    rcases List.mem_cons.mp h with rfl | h
    · exact ⟨n, List.mem_cons_self _ _⟩
    · obtain ⟨i, hi⟩ := ih (n + 1) s h
      exact ⟨i, List.mem_cons_of_mem _ hi⟩

/-- The score-map keys are strictly increasing. -/
theorem scores_keys_pairwise (ss : List (List Nat)) (wf : List (List Nat × Nat)) :
    (((score_sentences ss wf).1).map Prod.fst).Pairwise (· < ·) := by
  rw [scores_keys]
  refine List.pairwise_map.mpr ?_
  exact List.Pairwise.filter _ (pairwise_enumFrom ss 0)

/-- The score map itself has strictly increasing indices. -/
theorem scores_pairwise (ss : List (List Nat)) (wf : List (List Nat × Nat)) :
    ((score_sentences ss wf).1).Pairwise (fun a b => a.1 < b.1) :=
  List.pairwise_map.mp (scores_keys_pairwise ss wf)

/-- The score-map keys are distinct. -/
theorem scores_keys_nodup (ss : List (List Nat)) (wf : List (List Nat × Nat)) :
    (((score_sentences ss wf).1).map Prod.fst).Nodup :=
  (scores_keys_pairwise ss wf).imp Nat.ne_of_lt

/-- Every score-map key is a valid sentence index. -/
theorem scores_key_lt (ss : List (List Nat)) (wf : List (List Nat × Nat))
    (i : Nat) (hi : i ∈ ((score_sentences ss wf).1).map Prod.fst) :
    i < ss.length := by
  rw [scores_keys] at hi
  obtain ⟨p, hp, rfl⟩ := List.mem_map.mp hi
  obtain ⟨i, s⟩ := p
  have hmem : (i, s) ∈ ss.enum := List.mem_of_mem_filter hp
  have := (List.mem_enumFrom hmem).2.1
  show i < ss.length
  omega

/-- Every score-map key points to an eligible sentence. -/
theorem scores_key_hit (ss : List (List Nat)) (wf : List (List Nat × Nat))
    (i : Nat) (hi : i ∈ ((score_sentences ss wf).1).map Prod.fst) :
    sentenceHit wf (ss.getD i []) = true := by
  rw [scores_keys] at hi
  obtain ⟨p, hp, rfl⟩ := List.mem_map.mp hi
  obtain ⟨i, s⟩ := p
  have hmem : (i, s) ∈ ss.enum := List.mem_of_mem_filter hp
  have hcond := List.of_mem_filter hp
  have hgd : ss.getD (i - 0) [] = s := enumFrom_getD [] ss 0 i s hmem
  rw [Nat.sub_zero] at hgd
  show sentenceHit wf (ss.getD i []) = true
  rw [hgd]
  simpa using hcond

/-- An eligible sentence is non-empty. -/
theorem hit_sentence_ne_nil (wf : List (List Nat × Nat)) (s : List Nat)
    (h : sentenceHit wf s = true) : s ≠ [] := by
  intro hnil
  subst hnil
  simp [sentenceHit, lowerStr, findWords, wordsAux] at h

/-- Every key of the frequency map occurs as a word of some sentence. -/
theorem freq_key_in_sentence (text : List Nat) (k : List Nat)
    (hk : k ∈ (freqOf text).map Prod.fst) :
    ∃ s ∈ sentencesOf text, k ∈ findWords (lowerStr s) := by
  have hw : k ∈ wordsOf text :=
    (freq_fold_keys (wordsOf text) [] k hk).resolve_left (by simp)
  exact word_in_some_sentence text k hw

/-- A non-empty frequency map forces a non-empty sentence score map. -/
theorem scoresOf_ne_nil (text : List Nat) (hfreq : freqOf text ≠ []) :
    scoresOf text ≠ [] := by
  obtain ⟨p, hp⟩ : ∃ p, p ∈ freqOf text := by
    cases hq : freqOf text with
    | nil => exact absurd hq hfreq
    | cons p ps => exact ⟨p, hq ▸ List.mem_cons_self p ps⟩
  have hk : p.1 ∈ (freqOf text).map Prod.fst := List.mem_map_of_mem Prod.fst hp
  obtain ⟨s, hs, hks⟩ := freq_key_in_sentence text p.1 hk
  have hhit : sentenceHit (freqOf text) s = true := by
    rw [sentenceHit, List.any_eq_true]
    exact ⟨p.1, hks, (findVal_isSome _ _).mpr hk⟩
  obtain ⟨i, hi⟩ := mem_enumFrom_of_mem (sentencesOf text) 0 s hs
  intro hnil
  have hkeys : ((score_sentences (sentencesOf text) (freqOf text)).1).map Prod.fst = [] := by
    rw [show (score_sentences (sentencesOf text) (freqOf text)).1 = scoresOf text from rfl,
      hnil]
    rfl
  rw [scores_keys] at hkeys
  have hmem : (i, s) ∈ (sentencesOf text).enum.filter
      (fun p => sentenceHit (freqOf text) p.2) := by
    rw [List.mem_filter]
    exact ⟨hi, hhit⟩
  have h2 := List.mem_map_of_mem Prod.fst hmem
  rw [hkeys] at h2
  simp at h2

/-- The index comparison decodes to the order on Nat. -/
theorem leNat_iff (a b : Nat) : leNat a b = true ↔ a ≤ b := by simp [leNat]

/-- The index comparison is total. -/
theorem leNat_total (a b : Nat) : leNat a b = true ∨ leNat b a = true := by
  rcases Nat.le_total a b with h | h
  · exact Or.inl ((leNat_iff a b).mpr h)
  · exact Or.inr ((leNat_iff b a).mpr h)

/-- The index comparison is transitive. -/
theorem leNat_trans (a b c : Nat) (h1 : leNat a b = true) (h2 : leNat b c = true) :
    leNat a c = true :=
  (leNat_iff a c).mpr (Nat.le_trans ((leNat_iff a b).mp h1) ((leNat_iff b c).mp h2))

/-- The number of selected indices is the desired count capped by the
number of scored sentences. -/
theorem topIndices_length (scores : List (Nat × Nat)) (c : Nat) :
    (topIndices scores c).length = min c scores.length := by
  rw [topIndices, (perm_sortBy leNat _).length_eq, List.length_map, nlargest,
    List.length_take, (perm_sortBy geScore scores).length_eq]

/-- Every selected index is a score-map key. -/
theorem topIndices_sub (scores : List (Nat × Nat)) (c i : Nat)
    (hi : i ∈ topIndices scores c) : i ∈ scores.map Prod.fst := by
  rw [topIndices] at hi
  have h1 : i ∈ (nlargest c scores).map Prod.fst :=
    (perm_sortBy leNat _).mem_iff.mp hi
  have h2 : (nlargest c scores).Sublist (sortBy geScore scores) :=
    List.take_sublist _ _
  have h3 : i ∈ (sortBy geScore scores).map Prod.fst := (h2.map Prod.fst).subset h1
  exact ((perm_sortBy geScore scores).map Prod.fst).mem_iff.mp h3

/-- The selected indices are distinct when the score-map keys are. -/
theorem topIndices_nodup (scores : List (Nat × Nat)) (c : Nat)
    (hnd : (scores.map Prod.fst).Nodup) : (topIndices scores c).Nodup := by
  have h1 : ((sortBy geScore scores).map Prod.fst).Nodup :=
    ((perm_sortBy geScore scores).map Prod.fst).nodup_iff.mpr hnd
  have h2 : ((nlargest c scores).map Prod.fst).Nodup :=
    List.Nodup.sublist ((List.take_sublist c _).map Prod.fst) h1
  exact (perm_sortBy leNat _).nodup_iff.mpr h2

/-- The selected indices come out ascending. -/
theorem topIndices_sorted (scores : List (Nat × Nat)) (c : Nat) :
    (topIndices scores c).Pairwise (· ≤ ·) := by
  rw [topIndices]
  exact (pairwise_sortBy leNat_total leNat_trans _).imp
    (fun h => (leNat_iff _ _).mp h)

/-- The selected indices come out strictly ascending when the score-map
keys are distinct. -/
theorem topIndices_pairwise_lt (scores : List (Nat × Nat)) (c : Nat)
    (hnd : (scores.map Prod.fst).Nodup) :
    (topIndices scores c).Pairwise (· < ·) :=
  ((topIndices_sorted scores c).and (topIndices_nodup scores c hnd)).imp
    (fun h => Nat.lt_of_le_of_ne h.1 h.2)

/-- When the desired count covers every scored sentence, selection keeps
exactly the score-map keys, in their original ascending order. -/
theorem topIndices_all (scores : List (Nat × Nat))
    (hpw : scores.Pairwise (fun a b => a.1 < b.1)) (c : Nat)
    (hc : scores.length ≤ c) : topIndices scores c = scores.map Prod.fst := by
  have hkeys : (scores.map Prod.fst).Pairwise (· < ·) := List.pairwise_map.mpr hpw
  rw [topIndices, nlargest, List.take_of_length_le
    (by rw [(perm_sortBy geScore scores).length_eq]; exact hc)]
  have hp : List.Perm (sortBy leNat ((sortBy geScore scores).map Prod.fst))
      (scores.map Prod.fst) :=
    (perm_sortBy leNat _).trans ((perm_sortBy geScore scores).map Prod.fst)
  have hs1 : List.Sorted (· ≤ ·) (sortBy leNat ((sortBy geScore scores).map Prod.fst)) :=
    (pairwise_sortBy leNat_total leNat_trans _).imp (fun h => (leNat_iff _ _).mp h)
  have hs2 : List.Sorted (· ≤ ·) (scores.map Prod.fst) :=
    hkeys.imp (fun h => Nat.le_of_lt h)
  exact List.eq_of_perm_of_sorted hp hs1 hs2

/-- Deterministic tie-breaking of the selection: if two scored sentences
tie and the later one is selected, so is the earlier one. -/
theorem topIndices_tie (scores : List (Nat × Nat))
    (hpw : scores.Pairwise (fun a b => a.1 < b.1)) (c i j s : Nat)
    (hij : i < j) (hi : (i, s) ∈ scores) (hj : (j, s) ∈ scores)
    (hjin : j ∈ topIndices scores c) : i ∈ topIndices scores c := by
  have hperm : List.Perm (sortBy geScore scores) scores := perm_sortBy geScore scores
  have hlex : (sortBy geScore scores).Pairwise lexGT := pairwise_lex_sortBy scores hpw
  have hnd : (scores.map Prod.fst).Nodup := (List.pairwise_map.mpr hpw).imp Nat.ne_of_lt
  rw [topIndices, nlargest] at hjin
  have hjtake : j ∈ ((sortBy geScore scores).take c).map Prod.fst :=
    (perm_sortBy leNat _).mem_iff.mp hjin
  obtain ⟨p, hp, hpj⟩ := List.mem_map.mp hjtake
  have hpl : p ∈ sortBy geScore scores := (List.take_sublist c _).subset hp
  have hps : p ∈ scores := hperm.mem_iff.mp hpl
  have hpeq : p = (j, s) := by
    obtain ⟨pj, pv⟩ := p
    have hpj' : pj = j := hpj
    subst hpj'
    have := assoc_value_unique scores hnd pj pv s hps hj
    rw [this]
  have hjs_take : (j, s) ∈ (sortBy geScore scores).take c := hpeq ▸ hp
  have hil : (i, s) ∈ sortBy geScore scores := hperm.mem_iff.mpr hi
  have hitake : (i, s) ∈ (sortBy geScore scores).take c := by
    by_contra hcon
    have hld : (i, s) ∈ (sortBy geScore scores).drop c := by
      have happ := List.take_append_drop c (sortBy geScore scores)
      rcases List.mem_append.mp (by rw [happ]; exact hil) with h | h
      · exact absurd h hcon
      · exact h
    have hpair : lexGT (j, s) (i, s) := by
      have happ : ((sortBy geScore scores).take c ++
          (sortBy geScore scores).drop c).Pairwise lexGT := by
        rw [List.take_append_drop]
        exact hlex
      exact (List.pairwise_append.mp happ).2.2 (j, s) hjs_take (i, s) hld
    rcases hpair with h | ⟨h1, h2⟩
    · exact absurd h (lt_irrefl _)
    · omega
  rw [topIndices, nlargest]
  refine (perm_sortBy leNat _).mem_iff.mpr ?_
  exact List.mem_map_of_mem Prod.fst hitake

/-- The desired count is at least one. -/
theorem desiredCount_pos (n : Nat) (r : ℚ) : 1 ≤ desiredCount n r :=
  Nat.le_max_left 1 _

/-- The desired count is monotone in the ratio. -/
theorem desiredCount_mono (n : Nat) {r1 r2 : ℚ} (h : r1 ≤ r2) :
    desiredCount n r1 ≤ desiredCount n r2 := by
  unfold desiredCount
  have hf : ⌊(n : ℚ) * r1⌋ ≤ ⌊(n : ℚ) * r2⌋ :=
    Int.floor_mono (mul_le_mul_of_nonneg_left h (by positivity))
  have := Int.toNat_le_toNat hf
  omega

/-- At ratio one the desired count is the total sentence count. -/
theorem desiredCount_one (n : Nat) (hn : 1 ≤ n) : desiredCount n 1 = n := by
  unfold desiredCount
  rw [mul_one, Int.floor_natCast, Int.toNat_natCast]
  omega

/-- For a single sentence any ratio in (0, 1] desires exactly one
sentence. -/
theorem desiredCount_single (r : ℚ) (h1 : r ≤ 1) : desiredCount 1 r = 1 := by
  unfold desiredCount
  rw [Nat.cast_one, one_mul]
  have hf : ⌊r⌋ ≤ ⌊(1 : ℚ)⌋ := Int.floor_mono h1
  rw [Int.floor_one] at hf
  have := Int.toNat_le_toNat hf
  omega

/-- Reading positive indices of a cons reads the shifted tail. -/
theorem map_getD_cons (a : List Nat) (l : List (List Nat)) (idxs : List Nat)
    (hpos : ∀ j ∈ idxs, 1 ≤ j) :
    idxs.map (fun j => (a :: l).getD j []) =
      (idxs.map (fun j => j - 1)).map (fun j => l.getD j []) := by
  rw [List.map_map]
  refine List.map_congr_left ?_
  intro j hj
  obtain ⟨j', rfl⟩ : ∃ j', j = j' + 1 := ⟨j - 1, by have := hpos j hj; omega⟩
  show (a :: l).getD (j' + 1) [] = l.getD (j' + 1 - 1) []
  rw [List.getD_cons_succ, Nat.add_sub_cancel]

/-- Shifting strictly ascending positive indices keeps them strictly
ascending. -/
theorem pairwise_shift (idxs : List Nat) (hpw : idxs.Pairwise (· < ·))
    (hpos : ∀ j ∈ idxs, 1 ≤ j) :
    (idxs.map (fun j => j - 1)).Pairwise (· < ·) := by
  refine List.pairwise_map.mpr ?_
  refine hpw.imp_of_mem ?_
  intro a b ha _ hab
  have := hpos a ha
  omega

/-- Reading a strictly ascending list of valid indices yields a sublist. -/
theorem sublist_map_getD :
    ∀ (l : List (List Nat)) (idxs : List Nat),
      idxs.Pairwise (· < ·) → (∀ i ∈ idxs, i < l.length) →
      List.Sublist (idxs.map (fun i => l.getD i [])) l := by
  intro l
  induction l with
  | nil =>
    intro idxs _ hb
    cases idxs with
    | nil => simp
    | cons i rest => exact absurd (hb i (List.mem_cons_self i rest)) (by simp)
  | cons a l' ih =>
    intro idxs hpw hb
    cases idxs with
    | nil => simp
    | cons i rest =>
      rcases List.pairwise_cons.mp hpw with ⟨hi, hrest⟩
      have hblen : ∀ j ∈ rest, j < l'.length + 1 := by
        intro j hj
        have := hb j (List.mem_cons_of_mem i hj)
        simpa using this
      match i with
      | 0 =>
        have hpos : ∀ j ∈ rest, 1 ≤ j := fun j hj => hi j hj
        have hmap := map_getD_cons a l' rest hpos
        have hsub : List.Sublist ((rest.map (fun j => j - 1)).map
            (fun j => l'.getD j [])) l' := by
          refine ih _ (pairwise_shift rest hrest hpos) ?_
          intro j hj
          obtain ⟨j0, hj0, rfl⟩ := List.mem_map.mp hj
          have h1 := hblen j0 hj0
          have h2 := hpos j0 hj0
          omega
        rw [List.map_cons, List.getD_cons_zero, hmap]
        exact List.Sublist.cons₂ a hsub
      | i' + 1 =>
        have hpos : ∀ j ∈ (i' + 1) :: rest, 1 ≤ j := by
          intro j hj
          rcases List.mem_cons.mp hj with rfl | hj
          · omega
          · have := hi j hj
            omega
        have hmap := map_getD_cons a l' ((i' + 1) :: rest) hpos
        have hsub : List.Sublist ((((i' + 1) :: rest).map (fun j => j - 1)).map
            (fun j => l'.getD j [])) l' := by
          refine ih _ (pairwise_shift _ hpw hpos) ?_
          intro j hj
          obtain ⟨j0, hj0, rfl⟩ := List.mem_map.mp hj
          have h1 : j0 < l'.length + 1 := by
            have := hb j0 hj0
            simpa using this
          have h2 := hpos j0 hj0
          omega
        rw [hmap]
        exact List.Sublist.cons a hsub

/-- Joining a list whose head is a non-empty string is non-empty. -/
theorem joinSp_ne_nil (p : List Nat) (ps : List (List Nat)) (hp : p ≠ []) :
    joinSp (p :: ps) ≠ [] := by
  cases ps with
  | nil => simpa [joinSp] using hp
  | cons q qs => simp [joinSp]

/-- On scorable input, summarize_text joins the selected sentences. -/
theorem summarize_eq (text : List Nat) (q : ℚ) (hne : text ≠ [])
    (hfreq : freqOf text ≠ []) :
    summarize_text text q =
      joinSp ((selectedIndices text q).map (fun i => (sentencesOf text).getD i [])) := by
  rw [summarize_text, if_neg hne, if_neg hfreq]

/-- On scorable input at least one sentence index is selected. -/
theorem selected_ne_nil (text : List Nat) (q : ℚ) (hfreq : freqOf text ≠ []) :
    selectedIndices text q ≠ [] := by
  intro h
  have hlen0 : (selectedIndices text q).length = 0 := by rw [h]; rfl
  have hlen : (selectedIndices text q).length =
      min (desiredCount (sentencesOf text).length q) (scoresOf text).length :=
    topIndices_length (scoresOf text) (desiredCount (sentencesOf text).length q)
  have h1 := desiredCount_pos (sentencesOf text).length q
  have h3 : 0 < (scoresOf text).length :=
    List.length_pos.mpr (scoresOf_ne_nil text hfreq)
  omega

/-- On scorable input summarize_text returns a non-empty string. -/
theorem summary_ne_nil (text : List Nat) (q : ℚ) (hne : text ≠ [])
    (hfreq : freqOf text ≠ []) : summarize_text text q ≠ [] := by
  rw [summarize_eq text q hne hfreq]
  cases hsel : selectedIndices text q with
  | nil => exact absurd hsel (selected_ne_nil text q hfreq)
  | cons i0 rest =>
    rw [List.map_cons]
    refine joinSp_ne_nil _ _ ?_
    refine hit_sentence_ne_nil (freqOf text) _ ?_
    refine scores_key_hit (sentencesOf text) (freqOf text) i0 ?_
    refine topIndices_sub (scoresOf text) (desiredCount (sentencesOf text).length q) i0 ?_
    rw [show topIndices (scoresOf text) (desiredCount (sentencesOf text).length q) =
      selectedIndices text q from rfl, hsel]
    exact List.mem_cons_self i0 rest

/-- The keys of the sentence score map of a text, as the indices of its
eligible sentences. -/
theorem scoresOf_keys (text : List Nat) :
    (scoresOf text).map Prod.fst =
      ((sentencesOf text).enum.filter
        (fun p => sentenceHit (freqOf text) p.2)).map Prod.fst :=
  scores_keys (sentencesOf text) (freqOf text)

/-- There are never more scored sentences than sentences. -/
theorem scoresOf_length_le (text : List Nat) :
    (scoresOf text).length ≤ (sentencesOf text).length := by
  have h1 : (scoresOf text).length = ((scoresOf text).map Prod.fst).length :=
    (List.length_map _ _).symm
  rw [h1, scoresOf_keys, List.length_map]
  calc ((sentencesOf text).enum.filter
      (fun p => sentenceHit (freqOf text) p.2)).length
      ≤ (sentencesOf text).enum.length := List.length_filter_le _ _
    _ = (sentencesOf text).length := List.enum_length

/-- A text always has at least one sentence. -/
theorem sentencesOf_length_pos (text : List Nat) :
    1 ≤ (sentencesOf text).length := by
  have h : sentencesOf text ≠ [] := splitAux_ne_nil (strip text) false []
  exact List.length_pos.mpr h

/-- C1.  For every non-empty input text containing at least one non-stop
word and every ratio in (0,1], summarize_text returns a non-empty string
that is the single-space join of a subsequence of the sentences produced
by the sentence tokenizer, in their original order, with no sentence
duplicated and no text fabricated. -/
theorem claim_C1 (text : List Nat) (q : ℚ) (h0 : 0 < q) (h1 : q ≤ 1)
    (hne : text ≠ []) (hfreq : freqOf text ≠ []) :
    summarize_text text q ≠ [] ∧
    ∃ sel : List (List Nat), List.Sublist sel (sentencesOf text) ∧ sel ≠ [] ∧
      summarize_text text q = joinSp sel := by
  refine ⟨summary_ne_nil text q hne hfreq, ?_⟩
  refine ⟨(selectedIndices text q).map (fun i => (sentencesOf text).getD i []),
    ?_, ?_, ?_⟩
  · refine sublist_map_getD (sentencesOf text) (selectedIndices text q) ?_ ?_
    · exact topIndices_pairwise_lt (scoresOf text) _
        (scores_keys_nodup (sentencesOf text) (freqOf text))
    · intro i hi
      exact scores_key_lt (sentencesOf text) (freqOf text) i
        (topIndices_sub (scoresOf text) _ i hi)
  · intro h
    exact selected_ne_nil text q hfreq (List.map_eq_nil_iff.mp h)
  · exact summarize_eq text q hne hfreq

/-- C1 witness at a concrete text and ratio. -/
theorem claim_C1_witness :
    summarize_text (codes (r"Cats purr. Dogs bark.")) (1/2) ≠ [] ∧
    ∃ sel : List (List Nat),
      List.Sublist sel (sentencesOf (codes (r"Cats purr. Dogs bark."))) ∧
      sel ≠ [] ∧
      summarize_text (codes (r"Cats purr. Dogs bark.")) (1/2) = joinSp sel :=
  claim_C1 (codes (r"Cats purr. Dogs bark.")) (1/2) (by norm_num) (by norm_num)
    (by decide) (by decide)

/-- C2.  Selection ties are broken deterministically by lowest original
sentence index: whenever two sentences share a score and the later one is
selected, the earlier one is selected as well; and on the text
"The cat sat. Dogs bark loudly. Cats and dogs are pets." with ratio 0.34
sentences 1 and 2 tie at score 4, sentence 1 wins, and the summary is
exactly "Dogs bark loudly.". -/
theorem claim_C2 :
    (∀ (text : List Nat) (q : ℚ), 0 < q → q ≤ 1 →
      ∀ i j s : Nat, i < j → (i, s) ∈ scoresOf text → (j, s) ∈ scoresOf text →
        j ∈ selectedIndices text q → i ∈ selectedIndices text q) ∧
    summarize_text (codes (r"The cat sat. Dogs bark loudly. Cats and dogs are pets."))
      (34/100) = codes (r"Dogs bark loudly.") := by
  constructor
  · intro text q _ _ i j s hij hi hj hjin
    exact topIndices_tie (scoresOf text)
      (scores_pairwise (sentencesOf text) (freqOf text)) _ i j s hij hi hj hjin
  · have hlen : (sentencesOf
        (codes (r"The cat sat. Dogs bark loudly. Cats and dogs are pets."))).length = 3 := by
      decide
    have hc : desiredCount 3 (34/100) = 1 := by norm_num [desiredCount]
    rw [summarize_text, if_neg (by decide), if_neg (by decide), selectedIndices,
      hlen, hc]
    decide

/-- C2 witness: a concrete tie whose later member is selected forces the
earlier member in as well (ratio 0.67 selects two of the three sentences). -/
theorem claim_C2_witness :
    1 ∈ selectedIndices
      (codes (r"The cat sat. Dogs bark loudly. Cats and dogs are pets.")) (67/100) := by
  have hsel2 : 2 ∈ selectedIndices
      (codes (r"The cat sat. Dogs bark loudly. Cats and dogs are pets.")) (67/100) := by
    have hlen : (sentencesOf
        (codes (r"The cat sat. Dogs bark loudly. Cats and dogs are pets."))).length = 3 := by
      decide
    have hc : desiredCount 3 (67/100) = 2 := by
      norm_num [desiredCount]
      decide
    rw [selectedIndices, hlen, hc]
    decide
  exact claim_C2.1 (codes (r"The cat sat. Dogs bark loudly. Cats and dogs are pets."))
    (67/100) (by norm_num) (by norm_num) 1 2 4 (by omega) (by decide) (by decide) hsel2

/-- C3.  For every text and ratio in (0,1] the desired number of summary
sentences is max(1, floor(total sentence count * ratio)); in particular a
scorable text tokenized into exactly one sentence still yields that one
sentence at any ratio in (0,1], including 0.01. -/
theorem claim_C3 (text : List Nat) (q : ℚ) (h0 : 0 < q) (h1 : q ≤ 1)
    (hne : text ≠ []) (hfreq : freqOf text ≠ [])
    (hone : (sentencesOf text).length = 1) :
    (∀ n : Nat, desiredCount n q = max 1 (Int.toNat ⌊(n : ℚ) * q⌋)) ∧
    summarize_text text q = (sentencesOf text).headD [] := by
  constructor
  · intro n; rfl
  · obtain ⟨s, hs⟩ := List.length_eq_one.mp hone
    have hcount : desiredCount (sentencesOf text).length q = 1 := by
      rw [hone]
      exact desiredCount_single q h1
    have hne2 : scoresOf text ≠ [] := scoresOf_ne_nil text hfreq
    have hklt : ∀ i ∈ (scoresOf text).map Prod.fst, i < 1 := by
      intro i hi
      have h := scores_key_lt (sentencesOf text) (freqOf text) i hi
      rw [hone] at h
      exact h
    obtain ⟨p, rest, hscores⟩ : ∃ p rest, scoresOf text = p :: rest := by
      cases hq : scoresOf text with
      | nil => exact absurd hq hne2
      | cons p rest => exact ⟨p, rest, rfl⟩
    have hp0 : p.1 = 0 := by
      have hm : p.1 ∈ (scoresOf text).map Prod.fst := by rw [hscores]; simp
      have := hklt p.1 hm
      omega
    have hrest : rest = [] := by
      cases hr : rest with
      | nil => rfl
      | cons p2 rest2 =>
        have hm : p2.1 ∈ (scoresOf text).map Prod.fst := by
          rw [hscores, hr]; simp
        have hlt1 := hklt p2.1 hm
        have hpw : (scoresOf text).Pairwise (fun a b => a.1 < b.1) :=
          scores_pairwise (sentencesOf text) (freqOf text)
        rw [hscores, hr] at hpw
        have := (List.pairwise_cons.mp hpw).1 p2 (List.mem_cons_self _ _)
        omega
    have hsel : selectedIndices text q = [p.1] := by
      rw [selectedIndices, hcount, hscores, hrest]
      rfl
    rw [summarize_eq text q hne hfreq, hsel, hp0, hs]
    rfl

/-- C3 witness: a one-sentence text at ratio 0.01 keeps its sentence. -/
theorem claim_C3_witness :
    summarize_text (codes (r"Hello.")) (1/100) =
      (sentencesOf (codes (r"Hello."))).headD [] :=
  (claim_C3 (codes (r"Hello.")) (1/100) (by norm_num) (by norm_num)
    (by decide) (by decide) (by decide)).2

/-- C4.  At ratio exactly 1 summarize_text selects exactly the sentences
with a score entry (there are never more scored sentences than the desired
count at ratio 1); in general, whenever fewer scored sentences exist than
the desired count, all scored sentences are selected. -/
theorem claim_C4 (text : List Nat) :
    (scoresOf text).length ≤ desiredCount (sentencesOf text).length 1 ∧
    selectedIndices text 1 = (scoresOf text).map Prod.fst ∧
    ∀ c, (scoresOf text).length ≤ c →
      topIndices (scoresOf text) c = (scoresOf text).map Prod.fst := by
  have hn := sentencesOf_length_pos text
  have hlen := scoresOf_length_le text
  have hall : ∀ c, (scoresOf text).length ≤ c →
      topIndices (scoresOf text) c = (scoresOf text).map Prod.fst :=
    fun c hc => topIndices_all (scoresOf text)
      (scores_pairwise (sentencesOf text) (freqOf text)) c hc
  refine ⟨?_, ?_, hall⟩
  · rw [desiredCount_one _ hn]
    exact hlen
  · show topIndices (scoresOf text) (desiredCount (sentencesOf text).length 1) = _
    refine hall _ ?_
    rw [desiredCount_one _ hn]
    exact hlen

/-- C4 witness at a concrete text and count. -/
theorem claim_C4_witness :
    topIndices (scoresOf
        (codes (r"The cat sat. Dogs bark loudly. Cats and dogs are pets."))) 5 =
      (scoresOf
        (codes (r"The cat sat. Dogs bark loudly. Cats and dogs are pets."))).map
        Prod.fst :=
  (claim_C4 (codes (r"The cat sat. Dogs bark loudly. Cats and dogs are pets."))).2.2
    5 (by decide)

/-- C5.  summarize_text reports the empty-input error on empty text and
the distinct no-scorable-content error when the frequency map is empty;
the two messages differ, and "The. An. Is." yields the no-scorable-content
error rather than an empty-string success. -/
theorem claim_C5 (q : ℚ) :
    summarize_text [] q = codes (r"Error: Input text is empty.") ∧
    (∀ text : List Nat, text ≠ [] → freqOf text = [] →
      summarize_text text q =
        codes (r"Error: Could not calculate word frequencies (text may contain only stop words or be too short).")) ∧
    codes (r"Error: Input text is empty.") ≠
      codes (r"Error: Could not calculate word frequencies (text may contain only stop words or be too short).") ∧
    summarize_text (codes (r"The. An. Is.")) q =
      codes (r"Error: Could not calculate word frequencies (text may contain only stop words or be too short).") := by
  refine ⟨?_, ?_, by decide, ?_⟩
  · rw [summarize_text, if_pos rfl]
  · intro text hne hfq
    rw [summarize_text, if_neg hne, if_pos hfq]
  · rw [summarize_text, if_neg (by decide), if_pos (by decide)]

/-- C5 witness: an all-stop-word text triggers the no-scorable-content
error at a concrete ratio. -/
theorem claim_C5_witness :
    summarize_text (codes (r"the and is")) (1/5) =
      codes (r"Error: Could not calculate word frequencies (text may contain only stop words or be too short).") :=
  (claim_C5 (1/5)).2.1 (codes (r"the and is")) (by decide) (by decide)

/-- C6.  For a fixed text, increasing the ratio within (0,1] never
decreases the number of sentences selected. -/
theorem claim_C6 (text : List Nat) (r1 r2 : ℚ) (h0 : 0 < r1) (h12 : r1 ≤ r2)
    (h1 : r2 ≤ 1) :
    (selectedIndices text r1).length ≤ (selectedIndices text r2).length := by
  have e1 := topIndices_length (scoresOf text)
    (desiredCount (sentencesOf text).length r1)
  have e2 := topIndices_length (scoresOf text)
    (desiredCount (sentencesOf text).length r2)
  show (topIndices (scoresOf text) (desiredCount (sentencesOf text).length r1)).length ≤
    (topIndices (scoresOf text) (desiredCount (sentencesOf text).length r2)).length
  rw [e1, e2]
  exact min_le_min (desiredCount_mono _ h12) (le_refl _)

/-- C6 witness at concrete ratios. -/
theorem claim_C6_witness :
    (selectedIndices
      (codes (r"The cat sat. Dogs bark loudly. Cats and dogs are pets."))
      (34/100)).length ≤
    (selectedIndices
      (codes (r"The cat sat. Dogs bark loudly. Cats and dogs are pets."))
      (67/100)).length :=
  claim_C6 (codes (r"The cat sat. Dogs bark loudly. Cats and dogs are pets."))
    (34/100) (67/100) (by norm_num) (by norm_num) (by norm_num)

/-- C7.  Every entry of the frequency map is a non-stop word with a
positive count. -/
theorem claim_C7 (ws : List (List Nat)) (k : List Nat) (v : Nat)
    (h : (k, v) ∈ calculate_word_frequencies ws) : k ∉ STOP_WORDS ∧ 0 < v :=
  freq_fold_inv ws [] (by simp) (k, v) h

/-- C7 witness on a one-word list. -/
theorem claim_C7_witness : (codes (r"cat")) ∉ STOP_WORDS ∧ 0 < 1 :=
  claim_C7 [codes (r"cat")] (codes (r"cat")) 1 (by decide)

/-- C8.  The triple loop of edit.py computes the matrix product: the final
result has entry (i, j) equal to the sum over k of X[i][k] * Y[k][j]. -/
theorem claim_C8 :
    result = (List.range 3).map (fun i => (List.range 4).map (fun j =>
      (((List.range 3).map (fun k => get2 X i k * get2 Y k j)).sum))) := by
  decide

/-- C9.  If the frequency map is non-empty then the sentence score map is
non-empty (every frequency-map key occurs in some sentence), so the
selector's empty-scores case is unreachable and the returned summary is
never the empty string. -/
theorem claim_C9 (text : List Nat) (q : ℚ) (hfreq : freqOf text ≠ []) :
    scoresOf text ≠ [] ∧
    (∀ k ∈ (freqOf text).map Prod.fst,
      ∃ s ∈ sentencesOf text, k ∈ findWords (lowerStr s)) ∧
    (text ≠ [] → summarize_text text q ≠ []) :=
  ⟨scoresOf_ne_nil text hfreq,
   fun k hk => freq_key_in_sentence text k hk,
   fun hne => summary_ne_nil text q hne hfreq⟩

/-- C9 witness at a concrete text and ratio. -/
theorem claim_C9_witness :
    summarize_text (codes (r"Cats purr. Dogs bark.")) (1/5) ≠ [] :=
  (claim_C9 (codes (r"Cats purr. Dogs bark.")) (1/5) (by decide)).2.2 (by decide)

/-- C10.  score_sentences returns the frequency map it was given
unchanged: every defaultdict subscript on it is guarded by a membership
test, so no entry is ever added during scoring. -/
theorem claim_C10 (ss : List (List Nat)) (wf : List (List Nat × Nat)) :
    (score_sentences ss wf).2 = wf :=
  foldl_scoreSentenceStep_snd ss.enum ([], wf)
